import Mathlib

/-!
Shallow embedding of the particle/actor core of the `gnp_pygame` library
(`gnipMath.py`, `gnppygame.py`, `gnpparticle.py`).

Conventions of the embedding:
* Python floats are modelled as exact rationals (`ℚ`); Python ints as `ℤ`.
* Python `int(x)` (truncation toward zero) is `pyint`; Python `//`
  (floor division) is `Int.fdiv`.
* A Python `assert` that guards an operation is modelled by returning
  `Option`/`Except` (`none`/`.error` = the assertion fires).
* `random.uniform` / `random.choice` style sampling is modelled by
  instantiating the emitter's policy objects with the deterministic
  (constant) policy variants of the source, which is enough for every
  property below; `random.choice(seq)` is modelled as indexing by an
  arbitrary externally supplied index reduced mod the length, with the
  empty-sequence `IndexError` as `none`.
-/

/-- Python `int(q)` for a real (here: rational) `q`: truncation toward zero. -/
def pyint (q : ℚ) : ℤ := q.num.tdiv q.den

/-- `gnipMath.NearestMultiple(num, target)`:
`int((num + (target // 2)) // target) * target` with Python floor division. -/
def NearestMultiple (num target : ℤ) : ℤ :=
  ((num + target.fdiv 2).fdiv target) * target

/-- `gnipMath.InverseLerp(val, min, max)`: `float(val - min) / (max - min)`.
A zero denominator raises `ZeroDivisionError` in Python (floats included),
modelled as `.error`. -/
def InverseLerp (val lo hi : ℚ) : Except String ℚ :=
  let offset := val - lo
  let delta := hi - lo
  if delta = 0 then .error "ZeroDivisionError" else .ok (offset / delta)

/-- `gnipMath.cVector2`: 2D vector with rational components. -/
structure cVector2 where
  x : ℚ
  y : ℚ
deriving DecidableEq, Repr

instance : Add cVector2 := ⟨fun a b => ⟨a.x + b.x, a.y + b.y⟩⟩

instance : Sub cVector2 := ⟨fun a b => ⟨a.x - b.x, a.y - b.y⟩⟩

instance : Neg cVector2 := ⟨fun a => ⟨-a.x, -a.y⟩⟩

/-- `cVector2.__mul__`: scalar multiplication, `cVector2(rhs*x, rhs*y)`. -/
instance : HMul cVector2 ℚ cVector2 := ⟨fun v s => ⟨s * v.x, s * v.y⟩⟩

/-- `gnipMath.cRange`: interval with a distinguished uninitialized state.
The uninitialized state carries no `_lo`/`_hi` values, so it is `none`;
an initialized range is `some (lo, hi)`. -/
inductive cRange where
  | empty : cRange
  | mk (lo hi : ℚ) : cRange
deriving DecidableEq, Repr

namespace cRange

/-- `cRange._isInitialized`. -/
def isInitialized : cRange → Bool
  | .empty => false
  | .mk _ _ => true

/-- `cRange.Include(val)`: expand the range to include the given value,
initializing the range to the degenerate interval `[val, val]` if needed. -/
def Include : cRange → ℚ → cRange
  | .empty, v => .mk v v
  | .mk lo hi, v => .mk (if v < lo then v else lo) (if v > hi then v else hi)

/-- `cRange.__getattr__('lo')`: asserts the range is initialized. -/
def getLo : cRange → Option ℚ
  | .empty => none
  | .mk lo _ => some lo

/-- `cRange.__getattr__('hi')`: asserts the range is initialized. -/
def getHi : cRange → Option ℚ
  | .empty => none
  | .mk _ hi => some hi

/-- `cRange.Span()`: `hi - lo`; asserts the range is initialized. -/
def Span : cRange → Option ℚ
  | .empty => none
  | .mk lo hi => some (hi - lo)

/-- `cRange.Mid()`: `(lo + hi) / 2.0`; asserts the range is initialized. -/
def Mid : cRange → Option ℚ
  | .empty => none
  | .mk lo hi => some ((lo + hi) / 2)

/-- Well-formedness of a `cRange`: an initialized range keeps `lo ≤ hi`. -/
def wf : cRange → Prop
  | .empty => True
  | .mk lo hi => lo ≤ hi

end cRange

/-- A color value as passed to `EmitterColor_Choice`: either something that
passes the `isinstance(color, (tuple, pygame.Color))` check (an RGB triple)
or any other Python value (which fails the check). -/
inductive PyColorVal where
  | rgb (r g b : ℤ) : PyColorVal
  | nonColor : PyColorVal
deriving DecidableEq, Repr

/-- Does a value pass the `isinstance(color, (tuple, pygame.Color))` check? -/
def PyColorVal.isColor : PyColorVal → Bool
  | .rgb _ _ _ => true
  | .nonColor => false

/-- `gnpparticle.EmitterColor_Choice.__init__(color_choices)`: asserts every
item of the tuple is a tuple/`pygame.Color`. There is no emptiness check:
an empty tuple runs the loop zero times and construction succeeds. -/
def EmitterColor_Choice.init (color_choices : List PyColorVal) :
    Except String (List PyColorVal) :=
  if color_choices.all PyColorVal.isColor then .ok color_choices
  else .error "AssertionError: items must be RGB tuples or pygame.Color"

/-- `gnpparticle.EmitterColor_Choice.get_color()`: `random.choice(choices)`.
The random draw is modelled by an external index `k` reduced mod the length;
`random.choice` on an empty sequence raises `IndexError`, modelled as `none`. -/
def EmitterColor_Choice.get_color (color_choices : List PyColorVal) (k : ℕ) :
    Option PyColorVal :=
  color_choices.get? (k % color_choices.length)

/-- `gnpparticle.EmitterRate` state: the closed set of deterministic rate
policy variants used by the claims (`EmitterRate_Burst` carries
`_num_particles` and `_is_complete`; `EmitterRate_DelayConstant` carries
`_emitDelay` and the `_delta_carryover` accumulator of
`EmitterRate_DelayBase`). -/
inductive EmitterRate where
  | burst (num_particles : ℤ) (is_complete : Bool) : EmitterRate
  | delayConstant (emitDelay delta_carryover : ℚ) : EmitterRate
deriving DecidableEq, Repr

namespace EmitterRate

/-- `EmitterRate_Burst(n)` as freshly constructed: `_is_complete = False`. -/
def EmitterRate_Burst.init (num_particles : ℤ) : EmitterRate :=
  .burst num_particles false

/-- `EmitterRate_DelayConstant(delay)` as freshly constructed:
`_delta_carryover = 0.0`. -/
def EmitterRate_DelayConstant.init (emit_delay : ℚ) : EmitterRate :=
  .delayConstant emit_delay 0

/-- `how_many(delta_time)`: for `Burst` it sets `_is_complete` and returns
`_num_particles`; for `DelayConstant` it is `EmitterRate_DelayBase.how_many`:
`total = dt + carryover`, `count = int(total / delay)`,
`carryover = total - count * delay`, return `count`.
Returns the count together with the updated policy state. -/
def how_many : EmitterRate → ℚ → ℤ × EmitterRate
  | .burst n _, _ => (n, .burst n true)
  | .delayConstant delay carry, dt =>
      let total := dt + carry
      let emit_count := pyint (total / delay)
      (emit_count, .delayConstant delay (total - emit_count * delay))

/-- `is_complete()`: `Burst` reports its flag; `DelayConstant` always
returns `False`. -/
def is_complete : EmitterRate → Bool
  | .burst _ c => c
  | .delayConstant _ _ => false

/-- Drive a rate policy through a whole sequence of frame deltas,
accumulating the total emitted count. -/
def run : EmitterRate → List ℚ → ℤ × EmitterRate
  | r, [] => (0, r)
  | r, dt :: rest =>
      let (c, r') := r.how_many dt
      let (cs, r'') := r'.run rest
      (c + cs, r'')

end EmitterRate

/-- `gnpparticle.Particle`: position, velocity, remaining lifetime, color,
size.  Color and size are irrelevant to the dynamics but kept faithfully. -/
structure Particle where
  position : cVector2
  velocity : cVector2
  lifetime_remaining : ℚ
  color : PyColorVal
  size : ℕ
deriving DecidableEq, Repr

namespace Particle

/-- `Particle.can_reap()`: `lifetime_remaining <= 0.0`. -/
def can_reap (p : Particle) : Bool := p.lifetime_remaining ≤ 0

/-- `Particle.step(time_delta)`: `position += velocity * dt`; decrement
`lifetime_remaining`, clamping at `0.0`. (The leading
`assert not can_reap()` is a precondition on the caller; the state update
after the assert is modelled.) -/
def step (time_delta : ℚ) (p : Particle) : Particle :=
  let lifetime := p.lifetime_remaining - time_delta
  { p with
    position := p.position + p.velocity * time_delta
    lifetime_remaining := if lifetime < 0 then 0 else lifetime }

end Particle

namespace ActorList

/-- `gnppygame.ActorList.step(time_delta)`: step every actor in order; the
actors whose `can_reap()` is true after their own step are collected and
removed from the list after the loop (so removal happens inside the same
`step` call).  Stepping actors are independent of one another, so the
iterate-then-remove loop is the map followed by discarding reapable
actors, preserving order. -/
def step (time_delta : ℚ) (actors : List Particle) : List Particle :=
  (actors.map (Particle.step time_delta)).filter (fun a => ! a.can_reap)

/-- `gnppygame.ActorList.draw(surface)`: calls `draw` on every actor in
list order with no filtering; the result is the sequence of actors that
receive a `draw` call. -/
def draw (actors : List Particle) : List Particle := actors

end ActorList

/-- `gnpparticle.Emitter`: position, policy set, start size, optional field,
`can_emit` flag, and the internal `ActorList` of particles.  The policy
objects are instantiated with the deterministic variants of the source:
`EmitterSpeed_Constant._speed`, `EmitterDirection_Constant._dir` (stored
normalized by its constructor), `EmitterLifetime_Constant._lifetime`,
`EmitterColor_Constant._color`, and `cEmitterField_Constant._accel_vect`
(or no field). -/
structure Emitter where
  position : cVector2
  rate_obj : EmitterRate
  speed : ℚ
  dir : cVector2
  lifetime : ℚ
  color : PyColorVal
  start_size : ℕ
  field_accel : Option cVector2
  can_emit : Bool
  particles : List Particle
deriving DecidableEq, Repr

namespace Emitter

/-- `Emitter.can_reap()`: `pending = bool(len(particles))`;
`return not pending and rate_obj.is_complete()`. -/
def can_reap (e : Emitter) : Bool :=
  ¬ (e.particles.length != 0) && e.rate_obj.is_complete

/-- `Emitter._emit(time_delta)`: if the rate policy is not complete, ask it
`how_many(dt)` and append that many particles, each built by sampling the
policies (constant here): `velocity = direction * speed`, position is the
emitter's position, with the policy lifetime, color and `start_size`.
`range(n)` of a negative count is empty, hence `Int.toNat`. -/
def emit (time_delta : ℚ) (e : Emitter) : Emitter :=
  if e.rate_obj.is_complete then e
  else
    { e with
      rate_obj := (e.rate_obj.how_many time_delta).2
      particles := e.particles ++
        List.replicate (e.rate_obj.how_many time_delta).1.toNat
          ⟨e.position, e.dir * e.speed, e.lifetime, e.color, e.start_size⟩ }

/-- `Emitter.step(time_delta)`: emit if `can_emit`; then, if a field policy
is present, update every particle's velocity by
`field.get_accel_vector(pos, vel) * dt` (a constant field returns
`_accel_vect` regardless of arguments); then step the particle
`ActorList`. -/
def step (time_delta : ℚ) (e : Emitter) : Emitter :=
  let e1 := if e.can_emit then e.emit time_delta else e
  let e2 :=
    match e1.field_accel with
    | some a =>
        { e1 with particles :=
            e1.particles.map (fun (p : Particle) => { p with velocity := p.velocity + a * time_delta }) }
    | none => e1
  { e2 with particles := ActorList.step time_delta e2.particles }

end Emitter

/-- One `Include` call preserves `lo ≤ hi`. -/
theorem cRange.wf_Include (r : cRange) (v : ℚ) (h : r.wf) : (r.Include v).wf := by
  cases r with
  | empty => exact le_refl v
  | mk lo hi =>
      simp only [cRange.wf, cRange.Include] at h ⊢
      split_ifs with h1 h2 h2 <;> linarith

/-- C5: for `EmitterRate_Burst(n)`, `is_complete()` is false before any
`how_many` call; the first `how_many(dt)` returns `n`; afterwards
`is_complete()` is true. -/
theorem burst_first_call (n : ℤ) (dt : ℚ) :
    (EmitterRate.EmitterRate_Burst.init n).is_complete = false ∧
    ((EmitterRate.EmitterRate_Burst.init n).how_many dt).1 = n ∧
    ((EmitterRate.EmitterRate_Burst.init n).how_many dt).2.is_complete = true :=
  ⟨rfl, rfl, rfl⟩

/-- C4: `Emitter.can_reap()` is true iff the rate policy reports complete
and the particle collection is empty. -/
theorem emitter_can_reap_iff (e : Emitter) :
    e.can_reap = true ↔ (e.rate_obj.is_complete = true ∧ e.particles = []) := by
  simp [Emitter.can_reap, List.length_eq_zero, and_comm]

/-- C6: `lo ≤ hi` holds after any sequence of `Include` calls starting from
the empty `cRange` (every initialized range arises this way: the two-value
constructor itself just performs two `Include` calls); starting empty,
`Include(5)` then `Include(-3)` gives `lo = -3`, `hi = 5`, `Span() = 8`,
`Mid() = 1`; and every read of `lo`, `hi`, `Span()` or `Mid()` on a
never-initialized `cRange` fails its `_isInitialized` assertion. -/
theorem cRange_invariants (vals : List ℚ) :
    (vals.foldl cRange.Include cRange.empty).wf ∧
    ((cRange.empty.Include 5).Include (-3)).getLo = some (-3) ∧
    ((cRange.empty.Include 5).Include (-3)).getHi = some 5 ∧
    ((cRange.empty.Include 5).Include (-3)).Span = some 8 ∧
    ((cRange.empty.Include 5).Include (-3)).Mid = some 1 ∧
    cRange.empty.getLo = none ∧ cRange.empty.getHi = none ∧
    cRange.empty.Span = none ∧ cRange.empty.Mid = none := by
  refine ⟨?_, ?_, ?_, ?_, ?_, rfl, rfl, rfl, rfl⟩
  · have main : ∀ (l : List ℚ) (r : cRange), r.wf → (l.foldl cRange.Include r).wf := by
      intro l
      induction l with
      | nil => exact fun r h => h
      | cons v rest ih => exact fun r h => ih _ (cRange.wf_Include r v h)
    exact main vals cRange.empty trivial
  all_goals norm_num [cRange.Include, cRange.getLo, cRange.getHi, cRange.Span, cRange.Mid]

/-- C8: `InverseLerp(val, lo, hi)` returns `(val - lo) / (hi - lo)` whenever
`lo ≠ hi` (in particular `InverseLerp(75, 0, 100) = 0.75` and
`InverseLerp(25, 100, 0) = 0.75`, and the result can leave `[0, 1]`, e.g.
`InverseLerp(50, 10, 20) = 4`), and when `lo = hi` it fails with an explicit
division-by-zero error rather than returning a value. -/
theorem inverseLerp_spec (val lo hi : ℚ) (h : lo ≠ hi) :
    InverseLerp val lo hi = .ok ((val - lo) / (hi - lo)) ∧
    InverseLerp 75 0 100 = .ok (3 / 4) ∧
    InverseLerp 25 100 0 = .ok (3 / 4) ∧
    InverseLerp 50 10 20 = .ok 4 ∧
    InverseLerp val lo lo = .error "ZeroDivisionError" := by
  refine ⟨?_, ?_, ?_, ?_, ?_⟩
  · have hd : hi - lo ≠ 0 := sub_ne_zero.mpr (Ne.symm h)
    simp [InverseLerp, hd]
  all_goals norm_num [InverseLerp]

/-- C8 witness: the `lo ≠ hi` branch evaluated at `(75, 0, 100)`. -/
theorem inverseLerp_spec_witness :
    ((0 : ℚ) ≠ 100) ∧
    (InverseLerp 75 0 100 = .ok ((75 - 0) / (100 - 0)) ∧
     InverseLerp 75 0 100 = .ok (3 / 4) ∧
     InverseLerp 25 100 0 = .ok (3 / 4) ∧
     InverseLerp 50 10 20 = .ok 4 ∧
     InverseLerp 75 0 0 = .error "ZeroDivisionError") :=
  ⟨by decide, inverseLerp_spec 75 0 100 (by decide)⟩

/-- C2 counterexample: a particle with lifetime `1` becomes reapable during
`ActorList.step(1)`; contrary to the claim, it is removed within that same
`step` call, so the collection is already empty when the next
`draw` runs — the dead particle is drawn zero times, not once. -/
theorem actorList_dead_not_drawn_counterexample :
    (Particle.step 1 ⟨⟨0, 0⟩, ⟨0, 0⟩, 1, .nonColor, 0⟩).can_reap = true ∧
    ActorList.step 1 [⟨⟨0, 0⟩, ⟨0, 0⟩, 1, .nonColor, 0⟩] = [] ∧
    ActorList.draw (ActorList.step 1 [⟨⟨0, 0⟩, ⟨0, 0⟩, 1, .nonColor, 0⟩]) = [] := by
  norm_num [ActorList.step, ActorList.draw, Particle.step, Particle.can_reap,
    List.filter]

/-- C2 amended: an entity that becomes reapable during `ActorList.step(dt)`
is removed before that same `step` call returns: every entity still in the
collection after the step is non-reapable, and the following `draw` draws
exactly the surviving entities, so the dead entity is neither stepped nor
drawn from that point on. -/
theorem actorList_step_removes_reaped (dt : ℚ) (l : List Particle) :
    ((ActorList.step dt l).all fun a => ! a.can_reap) = true ∧
    ActorList.draw (ActorList.step dt l) = ActorList.step dt l := by
  refine ⟨?_, rfl⟩
  rw [List.all_eq_true]
  intro a ha
  simpa using List.of_mem_filter ha

/-- C7 counterexample: constructing `EmitterColor_Choice` with an empty
tuple succeeds (the per-item type assertions run zero times and there is no
emptiness check), contrary to the claim that construction fails; the
failure is deferred to `get_color`, where `random.choice` of an empty
sequence raises. -/
theorem emitterColorChoice_empty_counterexample :
    EmitterColor_Choice.init [] = .ok [] ∧
    EmitterColor_Choice.get_color [] 0 = none :=
  ⟨rfl, rfl⟩

/-- C7 amended: construction of `EmitterColor_Choice` succeeds exactly when
every item passes the tuple/`pygame.Color` type check — which holds
vacuously for the empty choice set — and `get_color` fails precisely on the
empty choice set, so the empty-set error is deferred to the first
`get_color` call rather than raised at construction. -/
theorem emitterColorChoice_defers_empty_failure (cs : List PyColorVal) (k : ℕ) :
    (EmitterColor_Choice.init cs = .ok cs ↔ cs.all PyColorVal.isColor = true) ∧
    (EmitterColor_Choice.get_color cs k = none ↔ cs = []) := by
  constructor
  · unfold EmitterColor_Choice.init
    constructor
    · intro hok
      by_contra hall
      rw [if_neg hall] at hok
      exact Except.noConfusion hok
    · intro hall
      rw [if_pos hall]
  · cases cs with
    | nil => simp [EmitterColor_Choice.get_color]
    | cons c rest =>
        simp only [EmitterColor_Choice.get_color, List.get?_eq_getElem?]
        constructor
        · intro hnone
          exfalso
          rw [List.getElem?_eq_none_iff] at hnone
          exact absurd hnone (by simpa using Nat.mod_lt _ (Nat.succ_pos rest.length))
        · intro hcontra
          exact absurd hcontra (by simp)

/-- Python `int()` truncation agrees with the floor on non-negative
rationals. -/
theorem pyint_eq_floor (q : ℚ) (h : 0 ≤ q) : pyint q = ⌊q⌋ := by
  rw [Rat.floor_def, pyint]
  exact Int.tdiv_eq_ediv (Rat.num_nonneg.mpr h) (Int.natCast_nonneg q.den)

/-- One `how_many` call of `EmitterRate_DelayConstant` under non-negative
time: the count is the floor of `total / delay`, the carryover is the
remainder, and the new carryover lies in `[0, delay)`. -/
theorem delayConstant_how_many (delay carry dt : ℚ) (hdelay : 0 < delay)
    (hcarry : 0 ≤ carry) (hdt : 0 ≤ dt) :
    EmitterRate.how_many (.delayConstant delay carry) dt =
      (⌊(dt + carry) / delay⌋,
       .delayConstant delay ((dt + carry) - ⌊(dt + carry) / delay⌋ * delay)) ∧
    0 ≤ (dt + carry) - (⌊(dt + carry) / delay⌋ : ℚ) * delay ∧
    (dt + carry) - (⌊(dt + carry) / delay⌋ : ℚ) * delay < delay := by
  have htot : (0 : ℚ) ≤ dt + carry := add_nonneg hdt hcarry
  have hq : (0 : ℚ) ≤ (dt + carry) / delay := div_nonneg htot hdelay.le
  have hpy : pyint ((dt + carry) / delay) = ⌊(dt + carry) / delay⌋ := pyint_eq_floor _ hq
  refine ⟨?_, ?_, ?_⟩
  · simp [EmitterRate.how_many, hpy]
  · have hfl : ((⌊(dt + carry) / delay⌋ : ℚ)) ≤ (dt + carry) / delay :=
      Int.floor_le ((dt + carry) / delay)
    have hle := (le_div_iff₀ hdelay).mp hfl
    linarith
  · have hfl : (dt + carry) / delay < (⌊(dt + carry) / delay⌋ : ℚ) + 1 :=
      Int.lt_floor_add_one ((dt + carry) / delay)
    have hlt := (div_lt_iff₀ hdelay).mp hfl
    have hexp : ((⌊(dt + carry) / delay⌋ : ℚ) + 1) * delay =
        (⌊(dt + carry) / delay⌋ : ℚ) * delay + delay := by ring
    linarith [hexp ▸ hlt]

/-- Driving `EmitterRate_DelayConstant` through a whole list of non-negative
frame deltas from a carryover in `[0, delay)` emits exactly
`⌊(carry + sum) / delay⌋` particles in total. -/
theorem run_delayConstant (delay : ℚ) (hdelay : 0 < delay) (dts : List ℚ) :
    ∀ carry : ℚ, 0 ≤ carry → carry < delay → (∀ d ∈ dts, 0 ≤ d) →
      (EmitterRate.run (.delayConstant delay carry) dts).1 =
        ⌊(carry + dts.sum) / delay⌋ := by
  induction dts with
  | nil =>
      intro carry h0 h1 _
      simp only [EmitterRate.run, List.sum_nil, add_zero]
      symm
      rw [Int.floor_eq_iff]
      refine ⟨by exact_mod_cast div_nonneg h0 hdelay.le, ?_⟩
      push_cast
      rw [div_lt_iff₀ hdelay]
      linarith
  | cons dt rest ih =>
      intro carry h0 h1 hall
      have hdt : 0 ≤ dt := hall dt (List.mem_cons_self dt rest)
      have hrest : ∀ d ∈ rest, 0 ≤ d := fun d hd => hall d (List.mem_cons_of_mem dt hd)
      obtain ⟨heq, hc0, hc1⟩ := delayConstant_how_many delay carry dt hdelay h0 hdt
      simp only [EmitterRate.run, heq, List.sum_cons]
      rw [ih _ hc0 hc1 hrest]
      have hrw : carry + (dt + rest.sum) =
          (⌊(dt + carry) / delay⌋ : ℚ) * delay +
            (((dt + carry) - (⌊(dt + carry) / delay⌋ : ℚ) * delay) + rest.sum) := by
        ring
      have hfloor : ⌊((⌊(dt + carry) / delay⌋ : ℚ) * delay +
          (((dt + carry) - (⌊(dt + carry) / delay⌋ : ℚ) * delay) + rest.sum)) / delay⌋ =
          ⌊(dt + carry) / delay⌋ +
            ⌊(((dt + carry) - (⌊(dt + carry) / delay⌋ : ℚ) * delay) + rest.sum) / delay⌋ := by
        rw [add_div, mul_div_cancel_right₀ _ hdelay.ne', Int.floor_int_add]
      rw [hrw, hfloor]

/-- C1: each `EmitterRate_DelayConstant.how_many(dt)` call with `delay > 0`,
non-negative `dt` and non-negative carryover computes
`total = dt + carryover`, returns `count = ⌊total / delay⌋` and stores
`carryover = total - count * delay`; and driving a fresh
`EmitterRate_DelayConstant(delay)` through any finite list of non-negative
frame deltas summing to `T` emits `⌊T / delay⌋` particles in total, in
particular within `±1` of `⌊T / delay⌋` however `T` is split into frames. -/
theorem delayConstant_accumulator (delay carry dt : ℚ) (dts : List ℚ)
    (hdelay : 0 < delay) (hcarry : 0 ≤ carry) (hdt : 0 ≤ dt)
    (hdts : ∀ d ∈ dts, 0 ≤ d) :
    (EmitterRate.how_many (.delayConstant delay carry) dt).1 =
      ⌊(dt + carry) / delay⌋ ∧
    (EmitterRate.how_many (.delayConstant delay carry) dt).2 =
      .delayConstant delay ((dt + carry) - ⌊(dt + carry) / delay⌋ * delay) ∧
    (EmitterRate.run (EmitterRate.EmitterRate_DelayConstant.init delay) dts).1 =
      ⌊dts.sum / delay⌋ ∧
    |(EmitterRate.run (EmitterRate.EmitterRate_DelayConstant.init delay) dts).1 -
      ⌊dts.sum / delay⌋| ≤ 1 := by
  obtain ⟨heq, _, _⟩ := delayConstant_how_many delay carry dt hdelay hcarry hdt
  have hrun := run_delayConstant delay hdelay dts 0 le_rfl hdelay hdts
  rw [zero_add] at hrun
  refine ⟨by rw [heq], by rw [heq], hrun, ?_⟩
  rw [EmitterRate.EmitterRate_DelayConstant.init, hrun]
  simp

/-- C1 witness: delay `2`, one call with `dt = 3`, and the frame sequence
`[5, 7]`. -/
theorem delayConstant_accumulator_witness :
    ((0 : ℚ) < 2 ∧ (0 : ℚ) ≤ 0 ∧ (0 : ℚ) ≤ 3 ∧ (∀ d ∈ [(5 : ℚ), 7], 0 ≤ d)) ∧
    ((EmitterRate.how_many (.delayConstant 2 0) 3).1 = ⌊((3 : ℚ) + 0) / 2⌋ ∧
     (EmitterRate.how_many (.delayConstant 2 0) 3).2 =
       .delayConstant 2 (((3 : ℚ) + 0) - ⌊((3 : ℚ) + 0) / 2⌋ * 2) ∧
     (EmitterRate.run (EmitterRate.EmitterRate_DelayConstant.init 2) [5, 7]).1 =
       ⌊([(5 : ℚ), 7].sum) / 2⌋ ∧
     |(EmitterRate.run (EmitterRate.EmitterRate_DelayConstant.init 2) [5, 7]).1 -
       ⌊([(5 : ℚ), 7].sum) / 2⌋| ≤ 1) :=
  ⟨⟨by decide, by decide, by decide, by decide⟩,
   delayConstant_accumulator 2 0 3 [5, 7] (by decide) (by decide) (by decide) (by decide)⟩

/-- C9: for `target > 0`, `NearestMultiple(num, target)` is a multiple of
`target`, no multiple of `target` is closer to `num`, an exact-half tie is
broken upward, and `NearestMultiple(6, 4) = 8`,
`NearestMultiple(-120, 90) = -90`. -/
theorem nearestMultiple_spec (num target : ℤ) (ht : 0 < target) :
    target ∣ NearestMultiple num target ∧
    (∀ m : ℤ, target ∣ m →
      |num - NearestMultiple num target| ≤ |num - m|) ∧
    (2 * |num - NearestMultiple num target| = target →
      num < NearestMultiple num target) ∧
    NearestMultiple 6 4 = 8 ∧ NearestMultiple (-120) 90 = -90 := by
  have hfd2 : target.fdiv 2 = target / 2 := Int.fdiv_eq_ediv target (by norm_num)
  have hfdt : (num + target / 2).fdiv target = (num + target / 2) / target :=
    Int.fdiv_eq_ediv _ ht.le
  have hNM : NearestMultiple num target = target * ((num + target / 2) / target) := by
    unfold NearestMultiple
    rw [hfd2, hfdt, mul_comm]
  have hdm := Int.ediv_add_emod (num + target / 2) target
  have hm0 := Int.emod_nonneg (num + target / 2) ht.ne'
  have hm1 := Int.emod_lt_of_pos (num + target / 2) ht
  have hd : num - NearestMultiple num target =
      (num + target / 2) % target - target / 2 := by
    rw [hNM]
    omega
  have h2d : 2 * |num - NearestMultiple num target| ≤ target := by
    rw [hd]
    rcases abs_cases ((num + target / 2) % target - target / 2) with ⟨he, _⟩ | ⟨he, _⟩ <;>
      omega
  refine ⟨⟨(num + target / 2) / target, hNM⟩, ?_, ?_, by decide, by decide⟩
  · intro m hm
    by_cases hrm : NearestMultiple num target = m
    · rw [hrm]
    · have hdvd : target ∣ NearestMultiple num target - m :=
        dvd_sub ⟨(num + target / 2) / target, hNM⟩ hm
      have habs : target ≤ |NearestMultiple num target - m| :=
        Int.le_of_dvd (abs_pos.mpr (sub_ne_zero.mpr hrm)) ((dvd_abs _ _).mpr hdvd)
      rcases abs_cases (num - NearestMultiple num target) with ⟨ha, _⟩ | ⟨ha, _⟩ <;>
        rcases abs_cases (num - m) with ⟨hb, _⟩ | ⟨hb, _⟩ <;>
          rcases abs_cases (NearestMultiple num target - m) with ⟨hc, _⟩ | ⟨hc, _⟩ <;>
            omega
  · intro htie
    rw [hd] at htie
    rcases abs_cases ((num + target / 2) % target - target / 2) with ⟨he, _⟩ | ⟨he, _⟩ <;>
      omega

/-- C9 witness: the characterization evaluated at `(6, 4)`. -/
theorem nearestMultiple_spec_witness :
    ((0 : ℤ) < 4) ∧
    ((4 : ℤ) ∣ NearestMultiple 6 4 ∧
     (∀ m : ℤ, (4 : ℤ) ∣ m → |6 - NearestMultiple 6 4| ≤ |6 - m|) ∧
     (2 * |6 - NearestMultiple 6 4| = 4 → 6 < NearestMultiple 6 4) ∧
     NearestMultiple 6 4 = 8 ∧ NearestMultiple (-120) 90 = -90) :=
  ⟨by decide, nearestMultiple_spec 6 4 (by decide)⟩

/-- The emit phase does not touch the field policy. -/
theorem emit_field_accel (e : Emitter) (dt : ℚ) :
    (e.emit dt).field_accel = e.field_accel := by
  unfold Emitter.emit
  split <;> rfl

/-- The emit phase only appends: existing particles stay in the list. -/
theorem mem_emit_particles (e : Emitter) (dt : ℚ) (p : Particle)
    (hp : p ∈ e.particles) : p ∈ (e.emit dt).particles := by
  unfold Emitter.emit
  split
  · exact hp
  · exact List.mem_append_left _ hp

/-- Field pass followed by the particle-collection step: a particle present
after the emit phase with more lifetime than `dt` survives, with the field
acceleration folded into its velocity before the position integration. -/
theorem emitter_step_tracks_particle (e : Emitter) (a : cVector2) (p : Particle)
    (dt : ℚ) (hf : e.field_accel = some a)
    (hp : p ∈ (if e.can_emit then e.emit dt else e).particles)
    (hlife : dt < p.lifetime_remaining) :
    (⟨p.position + (p.velocity + a * dt) * dt, p.velocity + a * dt,
      p.lifetime_remaining - dt, p.color, p.size⟩ : Particle) ∈ (e.step dt).particles := by
  have hf1 : (if e.can_emit then e.emit dt else e).field_accel = some a := by
    split
    · rw [emit_field_accel]
      exact hf
    · exact hf
  unfold Emitter.step
  simp only [hf1]
  unfold ActorList.step
  apply List.mem_filter.mpr
  refine ⟨?_, ?_⟩
  · apply List.mem_map.mpr
    refine ⟨⟨p.position, p.velocity + a * dt, p.lifetime_remaining, p.color, p.size⟩, ?_, ?_⟩
    · exact List.mem_map.mpr ⟨p, hp, rfl⟩
    · unfold Particle.step
      have hnn : ¬ (p.lifetime_remaining - dt < 0) := by linarith
      simp [hnn]
  · have hnn : ¬ (p.lifetime_remaining - dt ≤ 0) := by linarith
    simp [Particle.can_reap, hnn]

/-- C3: with a constant field `a`, a particle already in the emitter's
collection with velocity `v0` and position `p0` (and enough lifetime to
survive the frame) has, after one `Emitter.step(dt)`, velocity `v0 + a*dt`
and position `p0 + (v0 + a*dt)*dt`: the field pass updates the velocity
from the old velocity before the position integration of the same frame
(semi-implicit Euler). -/
theorem emitter_semi_implicit_euler (e : Emitter) (a : cVector2) (p : Particle)
    (dt : ℚ) (hf : e.field_accel = some a) (hp : p ∈ e.particles)
    (hlife : dt < p.lifetime_remaining) :
    (⟨p.position + (p.velocity + a * dt) * dt, p.velocity + a * dt,
      p.lifetime_remaining - dt, p.color, p.size⟩ : Particle) ∈ (e.step dt).particles := by
  apply emitter_step_tracks_particle e a p dt hf ?_ hlife
  split
  · exact mem_emit_particles e dt p hp
  · exact hp

/-- C3 witness: a one-particle emitter under the constant field `(1, 2)`. -/
theorem emitter_semi_implicit_euler_witness :
    ((⟨⟨0, 0⟩, .burst 0 true, 1, ⟨1, 0⟩, 1, .nonColor, 0, some ⟨1, 2⟩, false,
        [⟨⟨0, 0⟩, ⟨1, 0⟩, 5, .nonColor, 0⟩]⟩ : Emitter).field_accel = some ⟨1, 2⟩ ∧
     (⟨⟨0, 0⟩, ⟨1, 0⟩, 5, .nonColor, 0⟩ : Particle) ∈
       (⟨⟨0, 0⟩, .burst 0 true, 1, ⟨1, 0⟩, 1, .nonColor, 0, some ⟨1, 2⟩, false,
         [⟨⟨0, 0⟩, ⟨1, 0⟩, 5, .nonColor, 0⟩]⟩ : Emitter).particles ∧
     (2 : ℚ) < (5 : ℚ)) ∧
    (⟨(⟨0, 0⟩ : cVector2) + ((⟨1, 0⟩ : cVector2) + (⟨1, 2⟩ : cVector2) * (2 : ℚ)) * (2 : ℚ),
      (⟨1, 0⟩ : cVector2) + (⟨1, 2⟩ : cVector2) * (2 : ℚ),
      (5 : ℚ) - 2, .nonColor, 0⟩ : Particle) ∈
      ((⟨⟨0, 0⟩, .burst 0 true, 1, ⟨1, 0⟩, 1, .nonColor, 0, some ⟨1, 2⟩, false,
          [⟨⟨0, 0⟩, ⟨1, 0⟩, 5, .nonColor, 0⟩]⟩ : Emitter).step 2).particles :=
  ⟨⟨rfl, List.mem_singleton.mpr rfl, by decide⟩,
   emitter_semi_implicit_euler _ ⟨1, 2⟩ _ 2 rfl (List.mem_singleton.mpr rfl) (by decide)⟩

/-- C10: during a single `Emitter.step(dt)` with a constant field present,
emission enabled and the rate policy emitting at least one particle, the
newly created particle (initial velocity `dir*speed`, created at the
emitter's position) is appended before the field pass and the collection
step, so within that same call it receives the field acceleration on its
initial velocity, one position integration using the updated velocity, and
one lifetime decrement. -/
theorem emitter_new_particle_stepped_same_frame (e : Emitter) (a : cVector2)
    (dt : ℚ) (hf : e.field_accel = some a) (hemit : e.can_emit = true)
    (hrate : e.rate_obj.is_complete = false)
    (hcount : 0 < (e.rate_obj.how_many dt).1) (hlife : dt < e.lifetime) :
    (⟨e.position + (e.dir * e.speed + a * dt) * dt, e.dir * e.speed + a * dt,
      e.lifetime - dt, e.color, e.start_size⟩ : Particle) ∈ (e.step dt).particles := by
  apply emitter_step_tracks_particle e a
    ⟨e.position, e.dir * e.speed, e.lifetime, e.color, e.start_size⟩ dt hf ?_ hlife
  rw [if_pos hemit]
  unfold Emitter.emit
  rw [if_neg (by rw [hrate]; exact Bool.false_ne_true)]
  apply List.mem_append_right
  have htn : 0 < (e.rate_obj.how_many dt).1.toNat := Int.lt_toNat.mpr hcount
  exact List.mem_replicate.mpr ⟨htn.ne', rfl⟩

/-- C10 witness: a `Burst(3)` emitter with field `(0, 1)` at `dt = 1`. -/
theorem emitter_new_particle_stepped_same_frame_witness :
    ((⟨⟨0, 0⟩, .burst 3 false, 1, ⟨1, 0⟩, 5, .nonColor, 0, some ⟨0, 1⟩, true,
        []⟩ : Emitter).field_accel = some ⟨0, 1⟩ ∧
     (⟨⟨0, 0⟩, .burst 3 false, 1, ⟨1, 0⟩, 5, .nonColor, 0, some ⟨0, 1⟩, true,
        []⟩ : Emitter).can_emit = true ∧
     (⟨⟨0, 0⟩, .burst 3 false, 1, ⟨1, 0⟩, 5, .nonColor, 0, some ⟨0, 1⟩, true,
        []⟩ : Emitter).rate_obj.is_complete = false ∧
     0 < ((⟨⟨0, 0⟩, .burst 3 false, 1, ⟨1, 0⟩, 5, .nonColor, 0, some ⟨0, 1⟩, true,
        []⟩ : Emitter).rate_obj.how_many 1).1 ∧
     (1 : ℚ) < (5 : ℚ)) ∧
    (⟨(⟨0, 0⟩ : cVector2) + ((⟨1, 0⟩ : cVector2) * (1 : ℚ) + (⟨0, 1⟩ : cVector2) * (1 : ℚ)) * (1 : ℚ),
      (⟨1, 0⟩ : cVector2) * (1 : ℚ) + (⟨0, 1⟩ : cVector2) * (1 : ℚ),
      (5 : ℚ) - 1, .nonColor, 0⟩ : Particle) ∈
      ((⟨⟨0, 0⟩, .burst 3 false, 1, ⟨1, 0⟩, 5, .nonColor, 0, some ⟨0, 1⟩, true,
          []⟩ : Emitter).step 1).particles :=
  ⟨⟨rfl, rfl, rfl, by decide, by decide⟩,
   emitter_new_particle_stepped_same_frame _ ⟨0, 1⟩ 1 rfl rfl rfl (by decide) (by decide)⟩
